import Mathlib

/-!
# Verification of the knowledge-graph memory store (`memory_tools.py`)

Shallow embedding of the persistent knowledge-graph store from
`src/memory/scripts/memory_tools.py`.  The Python store keeps entities in a
dict `name -> {entityType, observations}` (insertion-ordered, unique keys)
and relations in a list of dicts `{from, to, relationType}`.  We model the
entity dict as an insertion-ordered association list with Python-dict
update semantics (assignment to an existing key replaces in place,
assignment to a fresh key appends) and the relation list as a plain list.
Persistence is one JSON record per line; we model the file at line
granularity with a `Record` inductive.
-/

set_option autoImplicit false

namespace MemoryGraph

/-- The value part of an entity dict entry: Python
`{'entityType': ..., 'observations': [...]}`. -/
structure EntityData where
  entityType : String
  observations : List String
deriving DecidableEq, Repr

/-- A relation record `{'from': ..., 'to': ..., 'relationType': ...}`.
`from` is a Lean keyword, so the field is `fromName`. -/
structure Rel where
  fromName : String
  toName : String
  relationType : String
deriving DecidableEq, Repr

/-- In-memory graph state: `self.entities` (insertion-ordered dict as an
association list) and `self.relations` (a list). -/
structure Graph where
  entities : List (String × EntityData)
  relations : List Rel
deriving DecidableEq, Repr

/-- The empty graph: a fresh `KnowledgeGraph` whose file does not exist. -/
def emptyGraph : Graph := ⟨[], []⟩

/-! ## Python dict primitives on the association list -/

/-- `self.entities[name]` lookup (first matching key). -/
def lookupEnt : List (String × EntityData) → String → Option EntityData
  | [], _ => none
  | (m, d) :: rest, n => if m = n then some d else lookupEnt rest n

/-- `name in self.entities`. -/
def hasEnt (es : List (String × EntityData)) (n : String) : Bool :=
  (lookupEnt es n).isSome

/-- `self.entities[name] = data`: replace in place if the key exists,
append otherwise (Python 3.7+ dict semantics). -/
def insertEnt : List (String × EntityData) → String → EntityData →
    List (String × EntityData)
  | [], n, d => [(n, d)]
  | (m, d0) :: rest, n, d =>
    if m = n then (n, d) :: rest else (m, d0) :: insertEnt rest n d

/-- `del self.entities[name]` (keys are unique in a dict, so removing all
occurrences of the key agrees with Python's single-key delete). -/
def removeEnt (es : List (String × EntityData)) (n : String) :
    List (String × EntityData) :=
  es.filter (fun p => p.1 ≠ n)

/-- The list of entity names currently in the store. -/
def entNames (g : Graph) : List String := g.entities.map Prod.fst

/-! ## Store operations (`KnowledgeGraph` methods)

Python raises `ValueError` on validation failure; we model each batch
method as a loop that threads the in-memory graph and stops at the first
failure, returning the (possibly partially mutated) in-memory graph
together with `some errorMessage`.  This captures the source's
first-failure-aborts-batch behaviour: the graph component of the result is
the state of `self.entities` / `self.relations` at the moment the
exception is raised. -/

/-- Input to `create_entities`: a dict with `name`, `entityType` and an
optional `observations` key (`entity.get('observations', [])`). -/
structure EntityIn where
  name : String
  entityType : String
  observations : Option (List String)
deriving DecidableEq, Repr

/-- `KnowledgeGraph.create_entities` loop body (before the final
`self._save()`). -/
def createEntitiesLoop : List EntityIn → Graph → Graph × Option String
  | [], g => (g, none)
  | e :: rest, g =>
    if hasEnt g.entities e.name then
      (g, some ("Entity already exists: " ++ e.name))
    else
      createEntitiesLoop rest
        { g with entities :=
            insertEnt g.entities e.name ⟨e.entityType, e.observations.getD []⟩ }

/-- `KnowledgeGraph.create_relations` loop body: endpoint existence checks,
then the duplicate-triple check against the current relation list (which
includes relations appended earlier in the same batch), then append. -/
def createRelationsLoop : List Rel → Graph → Graph × Option String
  | [], g => (g, none)
  | r :: rest, g =>
    if ¬ hasEnt g.entities r.fromName then
      (g, some ("Entity not found: " ++ r.fromName))
    else if ¬ hasEnt g.entities r.toName then
      (g, some ("Entity not found: " ++ r.toName))
    else if g.relations.any (fun s => s = r) then
      (g, some "Relation already exists")
    else
      createRelationsLoop rest { g with relations := g.relations ++ [r] }

/-- `KnowledgeGraph.add_observations`: fails if the entity is absent,
otherwise extends its observation list in place. -/
def addObservations (g : Graph) (n : String) (obs : List String) :
    Except String Graph :=
  match lookupEnt g.entities n with
  | none => .error ("Entity not found: " ++ n)
  | some d =>
    .ok { g with entities :=
            insertEnt g.entities n { d with observations := d.observations ++ obs } }

/-- `KnowledgeGraph.delete_entities` loop: missing names are silently
skipped; a present name is deleted and every relation touching it is
filtered out. -/
def deleteEntitiesLoop : List String → Graph → Graph
  | [], g => g
  | n :: rest, g =>
    if hasEnt g.entities n then
      deleteEntitiesLoop rest
        { entities := removeEnt g.entities n,
          relations := g.relations.filter
            (fun r => !(r.fromName == n) && !(r.toName == n)) }
    else
      deleteEntitiesLoop rest g

/-- The list comprehension in `delete_observations`: keep the entity's
observations that are not in the given list. -/
def delObsData (d : EntityData) (obs : List String) : EntityData :=
  { d with observations := d.observations.filter (fun o => !(obs.contains o)) }

/-- `KnowledgeGraph.delete_observations`: fails if the entity is absent,
otherwise keeps exactly the observations not occurring in the given list. -/
def deleteObservations (g : Graph) (n : String) (obs : List String) :
    Except String Graph :=
  match lookupEnt g.entities n with
  | none => .error ("Entity not found: " ++ n)
  | some d =>
    .ok { g with entities := insertEnt g.entities n (delObsData d obs) }

/-- `KnowledgeGraph.delete_relations` loop: for each requested relation,
keep only the stored relations not equal to it on the full triple. -/
def deleteRelationsLoop : List Rel → Graph → Graph
  | [], g => g
  | r :: rest, g =>
    deleteRelationsLoop rest
      { g with relations := g.relations.filter (fun s => !(s == r)) }

/-! ## Persistence codec (`_load` / `_save`)

The file is one JSON object per line.  We model it at line granularity:
`Record.blank` is a whitespace-only line (skipped by `if line.strip()`),
`Record.malformed` is a line on which `json.loads` or a required key
access raises (the exception is caught by the `try` wrapping the WHOLE
read loop, so loading stops there, keeping what was read so far),
`Record.other` is a well-formed object whose `type` discriminator is
neither `entity` nor `relation` (silently skipped, loading continues),
and `Record.ent` / `Record.rel` are the two real record shapes. -/
inductive Record where
  | blank
  | malformed
  | other
  | ent (name entityType : String) (observations : List String)
  | rel (fromName toName relationType : String)
deriving DecidableEq, Repr

/-- The body of `_load`: fold the lines into a fresh graph, stopping at
the first `malformed` line (the `except` clause surrounds the loop, so it
aborts the remaining lines but keeps the records already ingested). -/
def loadLoop : List Record → Graph → Graph
  | [], g => g
  | .blank :: rest, g => loadLoop rest g
  | .other :: rest, g => loadLoop rest g
  | .malformed :: _, g => g
  | .ent n t o :: rest, g =>
    loadLoop rest { g with entities := insertEnt g.entities n ⟨t, o⟩ }
  | .rel f t r :: rest, g =>
    loadLoop rest { g with relations := g.relations ++ [⟨f, t, r⟩] }

/-- `KnowledgeGraph._load` on an existing file with the given lines. -/
def loadFile (ls : List Record) : Graph := loadLoop ls emptyGraph

/-- The line sequence `_save` writes: all entity records in dict iteration
(= insertion) order, then all relation records in list order. -/
def serializeGraph (g : Graph) : List Record :=
  g.entities.map (fun p => .ent p.1 p.2.entityType p.2.observations)
    ++ g.relations.map (fun r => .rel r.fromName r.toName r.relationType)

/-- `KnowledgeGraph._save` with an explicit I/O fault point.  The source
opens the file with mode `'w'`, which truncates it immediately, and then
writes record lines one by one; an I/O error (e.g. disk full) after `k`
lines leaves the file holding only those `k` lines of the NEW state.
`fault = none` models a save that completes; `fault = some k` models a
write failure after `k` lines.  The result is the file contents after the
call together with whether the save succeeded. -/
def saveLinesFault (g : Graph) (fault : Option Nat) : List Record × Bool :=
  match fault with
  | none => (serializeGraph g, true)
  | some k => ((serializeGraph g).take k, false)

/-! ## Operation sequences (tool-call semantics)

Each tool wrapper constructs a fresh `KnowledgeGraph` (loading the current
durable state), runs one method, and saves on success; on a `ValueError`
the method's partial in-memory mutation is discarded with the graph
object and the durable state is untouched (`_save` is only reached after
the whole batch loop).  So across a sequence of tool calls the store
state advances exactly on success. -/
inductive Op where
  | createE (es : List EntityIn)
  | createR (rs : List Rel)
  | addObs (n : String) (obs : List String)
  | delE (ns : List String)
  | delObs (n : String) (obs : List String)
  | delR (rs : List Rel)
deriving DecidableEq, Repr

/-- One tool call on the current durable graph state: the new durable
state on success, the error otherwise. -/
def applyOp (g : Graph) : Op → Except String Graph
  | .createE es =>
    match createEntitiesLoop es g with
    | (g2, none) => .ok g2
    | (_, some e) => .error e
  | .createR rs =>
    match createRelationsLoop rs g with
    | (g2, none) => .ok g2
    | (_, some e) => .error e
  | .addObs n obs => addObservations g n obs
  | .delE ns => .ok (deleteEntitiesLoop ns g)
  | .delObs n obs => deleteObservations g n obs
  | .delR rs => .ok (deleteRelationsLoop rs g)

/-- Run a sequence of tool calls; a failed call leaves the store state
unchanged and the sequence continues. -/
def runOps (g : Graph) : List Op → Graph
  | [] => g
  | op :: rest =>
    runOps (match applyOp g op with | .ok g2 => g2 | .error _ => g) rest

/-- The dangling-edge invariant: every relation's endpoints name entities
currently present in the store. -/
def NoDangling (g : Graph) : Prop :=
  ∀ r ∈ g.relations, r.fromName ∈ entNames g ∧ r.toName ∈ entNames g

/-! ## `search_nodes` -/

/-- `needle` starts `hay` (character lists). -/
def leadsWith : List Char → List Char → Bool
  | [], _ => true
  | _ :: _, [] => false
  | c :: cs, h :: hs => c == h && leadsWith cs hs

/-- `needle` occurs contiguously inside `hay` (character lists). -/
def charsContain (needle : List Char) : List Char → Bool
  | [] => needle.isEmpty
  | h :: hs => leadsWith needle (h :: hs) || charsContain needle hs

/-- Python `needle in hay` substring test on the raw strings. -/
def strContains (hay needle : String) : Bool :=
  charsContain needle.toList hay.toList

/-- One search result: the entity fields plus the `match` tag reported by
`search_nodes` (`match` is a Lean keyword, hence `matchField`). -/
structure SearchHit where
  name : String
  entityType : String
  observations : List String
  matchField : String
deriving DecidableEq, Repr

/-- The inner observation loop of `search_nodes`: append one result at the
first matching observation, then `break`. -/
def obsAnyMatch (q : String) : List String → Bool
  | [] => false
  | o :: rest => if strContains o.toLower q then true else obsAnyMatch q rest

/-- The entity loop of `search_nodes`, with `q` already lowercased: name,
then type, then observations, `continue` after the first hit. -/
def searchLoop (q : String) : List (String × EntityData) → List SearchHit
  | [] => []
  | (n, d) :: rest =>
    if strContains n.toLower q then
      ⟨n, d.entityType, d.observations, "name"⟩ :: searchLoop q rest
    else if strContains d.entityType.toLower q then
      ⟨n, d.entityType, d.observations, "type"⟩ :: searchLoop q rest
    else if obsAnyMatch q d.observations then
      ⟨n, d.entityType, d.observations, "observation"⟩ :: searchLoop q rest
    else
      searchLoop q rest

/-- `KnowledgeGraph.search_nodes`. -/
def searchNodes (g : Graph) (q : String) : List SearchHit :=
  searchLoop q.toLower g.entities

/-- Restatement of the SPEC's description of the per-entity match (for the
refinement claim about `search_nodes`): case-insensitive substring match
checked in the precedence order entity name, then entity type, then any
observation text; the first matching field is reported, no match means no
result for that entity. -/
def specMatchField (query : String) (n : String) (d : EntityData) :
    Option String :=
  if strContains n.toLower query.toLower then some "name"
  else if strContains d.entityType.toLower query.toLower then some "type"
  else if d.observations.any (fun o => strContains o.toLower query.toLower) then
    some "observation"
  else none

/-! ## Delete tool result envelopes

The `delete_entities` / `delete_relations` wrappers report
`'deleted': len(request)` on success — the length of the request list,
not the number of records actually removed. -/

/-- The fields of the success envelope of the two delete tools that the
claims are about. -/
structure DeleteResult where
  status : String
  deleted : Nat
deriving DecidableEq, Repr

/-- The `delete_entities` tool wrapper on the current store state
(assuming the save succeeds): result envelope and new state. -/
def delete_entities_tool (g : Graph) (ns : List String) :
    DeleteResult × Graph :=
  (⟨"success", ns.length⟩, deleteEntitiesLoop ns g)

/-- The `delete_relations` tool wrapper on the current store state
(assuming the save succeeds): result envelope and new state. -/
def delete_relations_tool (g : Graph) (rs : List Rel) :
    DeleteResult × Graph :=
  (⟨"success", rs.length⟩, deleteRelationsLoop rs g)

/-! ## Helper lemmas on the dict primitives -/

theorem hasEnt_iff (es : List (String × EntityData)) (n : String) :
    hasEnt es n = true ↔ n ∈ es.map Prod.fst := by
  induction es with
  | nil => simp [hasEnt, lookupEnt]
  | cons p rest ih =>
    obtain ⟨m, d⟩ := p
    by_cases hm : m = n
    · subst hm; simp [hasEnt, lookupEnt]
    · simp only [hasEnt, lookupEnt, if_neg hm, List.map_cons, List.mem_cons]
      rw [← hasEnt]
      constructor
      · intro h; exact Or.inr (ih.1 h)
      · rintro (h | h)
        · exact absurd h.symm hm
        · exact ih.2 h

theorem mem_keys_insertEnt (es : List (String × EntityData)) (n : String)
    (d : EntityData) (m : String) :
    m ∈ (insertEnt es n d).map Prod.fst ↔ m ∈ es.map Prod.fst ∨ m = n := by
  induction es with
  | nil => simp [insertEnt]
  | cons p rest ih =>
    obtain ⟨k, d0⟩ := p
    by_cases hk : k = n
    · subst hk; simp [insertEnt]; tauto
    · simp only [insertEnt, if_neg hk, List.map_cons, List.mem_cons, ih]; tauto

theorem keys_insertEnt_of_mem (es : List (String × EntityData)) (n : String)
    (d : EntityData) (h : n ∈ es.map Prod.fst) :
    (insertEnt es n d).map Prod.fst = es.map Prod.fst := by
  induction es with
  | nil => simp at h
  | cons p rest ih =>
    obtain ⟨k, d0⟩ := p
    by_cases hk : k = n
    · subst hk; simp [insertEnt]
    · simp only [List.map_cons, List.mem_cons] at h
      rcases h with h | h
      · exact absurd h.symm hk
      · simp [insertEnt, if_neg hk, ih h]

theorem insertEnt_of_not_mem (es : List (String × EntityData)) (n : String)
    (d : EntityData) (h : n ∉ es.map Prod.fst) :
    insertEnt es n d = es ++ [(n, d)] := by
  induction es with
  | nil => simp [insertEnt]
  | cons p rest ih =>
    obtain ⟨k, d0⟩ := p
    simp only [List.map_cons, List.mem_cons, not_or] at h
    have hk : ¬ k = n := fun hkn => h.1 hkn.symm
    simp [insertEnt, hk, ih h.2]

theorem lookup_insertEnt_self (es : List (String × EntityData)) (n : String)
    (d : EntityData) : lookupEnt (insertEnt es n d) n = some d := by
  induction es with
  | nil => simp [insertEnt, lookupEnt]
  | cons p rest ih =>
    obtain ⟨k, d0⟩ := p
    by_cases hk : k = n
    · subst hk; simp [insertEnt, lookupEnt]
    · simp [insertEnt, if_neg hk, lookupEnt, hk, ih]

theorem insertEnt_insertEnt (es : List (String × EntityData)) (n : String)
    (d1 d2 : EntityData) :
    insertEnt (insertEnt es n d1) n d2 = insertEnt es n d2 := by
  induction es with
  | nil => simp [insertEnt]
  | cons p rest ih =>
    obtain ⟨k, d0⟩ := p
    by_cases hk : k = n
    · subst hk; simp [insertEnt]
    · simp [insertEnt, if_neg hk, ih]

theorem insertEnt_lookup_self (es : List (String × EntityData)) (n : String)
    (d : EntityData) (h : lookupEnt es n = some d) : insertEnt es n d = es := by
  induction es with
  | nil => simp [lookupEnt] at h
  | cons p rest ih =>
    obtain ⟨k, d0⟩ := p
    by_cases hk : k = n
    · subst hk
      have h' : d0 = d := by simpa [lookupEnt] using h
      subst h'
      simp [insertEnt]
    · simp only [lookupEnt, if_neg hk] at h
      simp [insertEnt, if_neg hk, ih h]

theorem removeEnt_cons (k : String) (d0 : EntityData)
    (rest : List (String × EntityData)) (n : String) :
    removeEnt ((k, d0) :: rest) n =
      if k = n then removeEnt rest n else (k, d0) :: removeEnt rest n := by
  by_cases hk : k = n
  · simp [removeEnt, List.filter_cons, hk]
  · simp [removeEnt, List.filter_cons, hk]

theorem mem_keys_removeEnt (es : List (String × EntityData)) (n m : String) :
    m ∈ (removeEnt es n).map Prod.fst ↔ m ∈ es.map Prod.fst ∧ m ≠ n := by
  induction es with
  | nil => simp [removeEnt]
  | cons p rest ih =>
    obtain ⟨k, d0⟩ := p
    rw [removeEnt_cons]
    by_cases hk : k = n
    · subst hk
      rw [if_pos rfl]
      simp only [ih, List.map_cons, List.mem_cons]
      constructor
      · rintro ⟨h1, h2⟩; exact ⟨Or.inr h1, h2⟩
      · rintro ⟨h | h1, h2⟩
        · exact absurd h h2
        · exact ⟨h1, h2⟩
    · simp only [if_neg hk, List.map_cons, List.mem_cons, ih]
      constructor
      · rintro (h | ⟨h1, h2⟩)
        · subst h; exact ⟨Or.inl rfl, hk⟩
        · exact ⟨Or.inr h1, h2⟩
      · rintro ⟨h | h, h2⟩
        · exact Or.inl h
        · exact Or.inr ⟨h, h2⟩

/-! ## Preservation of the dangling-edge invariant -/

theorem createEntitiesLoop_relations (es : List EntityIn) (g : Graph) :
    (createEntitiesLoop es g).1.relations = g.relations := by
  induction es generalizing g with
  | nil => rfl
  | cons e rest ih =>
    by_cases hh : hasEnt g.entities e.name = true
    · simp [createEntitiesLoop, hh]
    · have hh' : hasEnt g.entities e.name = false := by simpa using hh
      simp [createEntitiesLoop, hh', ih]

theorem createEntitiesLoop_keys_mono (es : List EntityIn) (g : Graph)
    (m : String) (h : m ∈ entNames g) :
    m ∈ entNames (createEntitiesLoop es g).1 := by
  induction es generalizing g with
  | nil => exact h
  | cons e rest ih =>
    by_cases hh : hasEnt g.entities e.name = true
    · simpa [createEntitiesLoop, hh] using h
    · have hh' : hasEnt g.entities e.name = false := by simpa using hh
      simp only [createEntitiesLoop, hh', Bool.false_eq_true, if_false]
      exact ih _ ((mem_keys_insertEnt _ _ _ _).2 (Or.inl h))

theorem createEntitiesLoop_inv (es : List EntityIn) (g : Graph)
    (h : NoDangling g) : NoDangling (createEntitiesLoop es g).1 := by
  intro r hr
  rw [createEntitiesLoop_relations] at hr
  obtain ⟨h1, h2⟩ := h r hr
  exact ⟨createEntitiesLoop_keys_mono _ _ _ h1,
    createEntitiesLoop_keys_mono _ _ _ h2⟩

theorem createRelationsLoop_inv (rs : List Rel) (g : Graph)
    (h : NoDangling g) : NoDangling (createRelationsLoop rs g).1 := by
  induction rs generalizing g with
  | nil => exact h
  | cons r rest ih =>
    by_cases h1 : hasEnt g.entities r.fromName = true
    · by_cases h2 : hasEnt g.entities r.toName = true
      · cases h3 : g.relations.any (fun s => s = r) with
        | true => simpa [createRelationsLoop, h1, h2, h3] using h
        | false =>
          have hg' : NoDangling { g with relations := g.relations ++ [r] } := by
            intro r' hr'
            simp only [List.mem_append, List.mem_singleton] at hr'
            rcases hr' with hr' | hr'
            · exact h r' hr'
            · subst hr'
              exact ⟨(hasEnt_iff _ _).1 h1, (hasEnt_iff _ _).1 h2⟩
          have hrec := ih _ hg'
          simpa [createRelationsLoop, h1, h2, h3] using hrec
      · have h2' : hasEnt g.entities r.toName = false := by simpa using h2
        simpa [createRelationsLoop, h1, h2'] using h
    · have h1' : hasEnt g.entities r.fromName = false := by simpa using h1
      simpa [createRelationsLoop, h1'] using h

theorem addObservations_inv (g : Graph) (n : String) (obs : List String)
    (g2 : Graph) (hok : addObservations g n obs = .ok g2)
    (h : NoDangling g) : NoDangling g2 := by
  unfold addObservations at hok
  cases hl : lookupEnt g.entities n with
  | none => rw [hl] at hok; exact absurd hok (by simp)
  | some d =>
    rw [hl] at hok
    simp only [Except.ok.injEq] at hok
    subst hok
    have hn : n ∈ g.entities.map Prod.fst :=
      (hasEnt_iff _ _).1 (by simp [hasEnt, hl])
    have hkeys : entNames
        { g with entities :=
            insertEnt g.entities n { d with observations := d.observations ++ obs } }
          = entNames g :=
      keys_insertEnt_of_mem _ _ _ hn
    intro r hr
    obtain ⟨h1, h2⟩ := h r hr
    rw [hkeys]
    exact ⟨h1, h2⟩

theorem deleteEntitiesLoop_relations_subset (ns : List String) (g : Graph) :
    ∀ r ∈ (deleteEntitiesLoop ns g).relations, r ∈ g.relations := by
  induction ns generalizing g with
  | nil => intro r hr; exact hr
  | cons n rest ih =>
    by_cases hh : hasEnt g.entities n = true
    · intro r hr
      simp only [deleteEntitiesLoop, hh, if_true] at hr
      exact List.mem_of_mem_filter (ih _ r hr)
    · have hh' : hasEnt g.entities n = false := by simpa using hh
      intro r hr
      simp only [deleteEntitiesLoop, hh', Bool.false_eq_true, if_false] at hr
      exact ih _ r hr

theorem deleteEntitiesLoop_inv (ns : List String) (g : Graph)
    (h : NoDangling g) : NoDangling (deleteEntitiesLoop ns g) := by
  induction ns generalizing g with
  | nil => exact h
  | cons n rest ih =>
    by_cases hh : hasEnt g.entities n = true
    · have hg' : NoDangling ⟨removeEnt g.entities n,
          g.relations.filter
            (fun r => !(r.fromName == n) && !(r.toName == n))⟩ := by
        intro r hr
        have hmem : r ∈ g.relations := List.mem_of_mem_filter hr
        have hcond := List.of_mem_filter hr
        simp only [Bool.and_eq_true, Bool.not_eq_true', beq_eq_false_iff_ne,
          ne_eq] at hcond
        obtain ⟨h1, h2⟩ := h r hmem
        exact ⟨(mem_keys_removeEnt _ _ _).2 ⟨h1, hcond.1⟩,
          (mem_keys_removeEnt _ _ _).2 ⟨h2, hcond.2⟩⟩
      have hrec := ih _ hg'
      simpa [deleteEntitiesLoop, hh] using hrec
    · have hh' : hasEnt g.entities n = false := by simpa using hh
      have hrec := ih _ h
      simpa [deleteEntitiesLoop, hh'] using hrec

theorem deleteObservations_inv (g : Graph) (n : String) (obs : List String)
    (g2 : Graph) (hok : deleteObservations g n obs = .ok g2)
    (h : NoDangling g) : NoDangling g2 := by
  unfold deleteObservations at hok
  cases hl : lookupEnt g.entities n with
  | none => rw [hl] at hok; exact absurd hok (by simp)
  | some d =>
    rw [hl] at hok
    simp only [Except.ok.injEq] at hok
    subst hok
    have hn : n ∈ g.entities.map Prod.fst :=
      (hasEnt_iff _ _).1 (by simp [hasEnt, hl])
    intro r hr
    obtain ⟨h1, h2⟩ := h r hr
    have hkeys := keys_insertEnt_of_mem g.entities n (delObsData d obs) hn
    show r.fromName ∈ List.map Prod.fst _ ∧ r.toName ∈ List.map Prod.fst _
    rw [hkeys]
    exact ⟨h1, h2⟩

theorem deleteRelationsLoop_inv (rs : List Rel) (g : Graph)
    (h : NoDangling g) : NoDangling (deleteRelationsLoop rs g) := by
  induction rs generalizing g with
  | nil => exact h
  | cons r rest ih =>
    have hg' : NoDangling
        { g with relations := g.relations.filter (fun s => !(s == r)) } := by
      intro r' hr'
      exact h r' (List.mem_of_mem_filter hr')
    have hrec := ih _ hg'
    simpa [deleteRelationsLoop] using hrec

theorem applyOp_inv (g : Graph) (op : Op) (g2 : Graph)
    (hok : applyOp g op = .ok g2) (h : NoDangling g) : NoDangling g2 := by
  cases op with
  | createE es =>
    simp only [applyOp] at hok
    cases hle : createEntitiesLoop es g with
    | mk g1 err =>
      cases err with
      | none =>
        rw [hle] at hok
        simp only [Except.ok.injEq] at hok
        subst hok
        have := createEntitiesLoop_inv es g h
        rw [hle] at this
        exact this
      | some e => rw [hle] at hok; exact absurd hok (by simp)
  | createR rs =>
    simp only [applyOp] at hok
    cases hle : createRelationsLoop rs g with
    | mk g1 err =>
      cases err with
      | none =>
        rw [hle] at hok
        simp only [Except.ok.injEq] at hok
        subst hok
        have := createRelationsLoop_inv rs g h
        rw [hle] at this
        exact this
      | some e => rw [hle] at hok; exact absurd hok (by simp)
  | addObs n obs => exact addObservations_inv g n obs g2 hok h
  | delE ns =>
    have : g2 = deleteEntitiesLoop ns g := by
      simpa [applyOp] using hok.symm
    rw [this]
    exact deleteEntitiesLoop_inv ns g h
  | delObs n obs => exact deleteObservations_inv g n obs g2 hok h
  | delR rs =>
    have : g2 = deleteRelationsLoop rs g := by
      simpa [applyOp] using hok.symm
    rw [this]
    exact deleteRelationsLoop_inv rs g h

theorem runOps_inv (ops : List Op) (g : Graph) (h : NoDangling g) :
    NoDangling (runOps g ops) := by
  induction ops generalizing g with
  | nil => exact h
  | cons op rest ih =>
    cases hop : applyOp g op with
    | ok g2 =>
      simp only [runOps, hop]
      exact ih _ (applyOp_inv _ _ _ hop h)
    | error e =>
      simp only [runOps, hop]
      exact ih _ h

theorem deleteEntitiesLoop_removes (ns : List String) (g : Graph) (n : String)
    (hp : hasEnt g.entities n = true) (hm : n ∈ ns) :
    ∀ r ∈ (deleteEntitiesLoop ns g).relations,
      r.fromName ≠ n ∧ r.toName ≠ n := by
  induction ns generalizing g with
  | nil => cases hm
  | cons m rest ih =>
    by_cases hmn : m = n
    · subst hmn
      intro r hr
      simp only [deleteEntitiesLoop, hp, if_true] at hr
      have hr' := deleteEntitiesLoop_relations_subset rest _ r hr
      have hcond := List.of_mem_filter hr'
      simp only [Bool.and_eq_true, Bool.not_eq_true', beq_eq_false_iff_ne,
        ne_eq] at hcond
      exact hcond
    · have hm' : n ∈ rest := by
        rcases List.mem_cons.1 hm with h | h
        · exact absurd h.symm hmn
        · exact h
      by_cases hh : hasEnt g.entities m = true
      · intro r hr
        simp only [deleteEntitiesLoop, hh, if_true] at hr
        have hp' : hasEnt (removeEnt g.entities m) n = true := by
          rw [hasEnt_iff]
          exact (mem_keys_removeEnt _ _ _).2
            ⟨(hasEnt_iff _ _).1 hp, fun hnm => hmn hnm.symm⟩
        exact ih _ hp' hm' r hr
      · have hh' : hasEnt g.entities m = false := by simpa using hh
        intro r hr
        simp only [deleteEntitiesLoop, hh', Bool.false_eq_true, if_false] at hr
        exact ih _ hp hm' r hr

/-- C1: after every successful operation in any sequence of tool calls
starting from the empty store, every relation's `from` and `to` name
entities present in the store; moreover `create_relations` rejects a
relation whose first endpoint check fails, and `delete_entities` removes
every relation touching a name it deletes. -/
theorem dangling_edge_invariant :
    (∀ ops : List Op, NoDangling (runOps emptyGraph ops))
    ∧ (∀ (g : Graph) (r : Rel) (rest : List Rel),
        hasEnt g.entities r.fromName = false ∨
          hasEnt g.entities r.toName = false →
        ∃ msg, createRelationsLoop (r :: rest) g = (g, some msg))
    ∧ (∀ (g : Graph) (ns : List String) (n : String),
        hasEnt g.entities n = true → n ∈ ns →
        ∀ r ∈ (deleteEntitiesLoop ns g).relations,
          r.fromName ≠ n ∧ r.toName ≠ n) := by
  refine ⟨?_, ?_, ?_⟩
  · intro ops
    apply runOps_inv
    intro r hr
    exact absurd hr (List.not_mem_nil r)
  · intro g r rest h
    rcases h with h | h
    · refine ⟨"Entity not found: " ++ r.fromName, ?_⟩
      simp [createRelationsLoop, h]
    · by_cases h1 : hasEnt g.entities r.fromName = true
      · refine ⟨"Entity not found: " ++ r.toName, ?_⟩
        simp [createRelationsLoop, h1, h]
      · have h1' : hasEnt g.entities r.fromName = false := by simpa using h1
        refine ⟨"Entity not found: " ++ r.fromName, ?_⟩
        simp [createRelationsLoop, h1']
  · intro g ns n hp hm
    exact deleteEntitiesLoop_removes ns g n hp hm

/-- Witness for C1 at concrete inputs: a create/relate/delete sequence
keeps the invariant, a relation between absent entities is rejected, and
deleting `"A"` removes the `"A" → "B"` edge. -/
theorem dangling_edge_invariant_witness :
    NoDangling (runOps emptyGraph
      [Op.createE [⟨"A", "t", none⟩, ⟨"B", "t", none⟩],
       Op.createR [⟨"A", "B", "k"⟩], Op.delE ["A"]])
    ∧ (∃ msg, createRelationsLoop [⟨"A", "B", "k"⟩] emptyGraph
        = (emptyGraph, some msg))
    ∧ (∀ r ∈ (deleteEntitiesLoop ["A"]
        (⟨[("A", ⟨"t", []⟩), ("B", ⟨"t", []⟩)],
          [⟨"A", "B", "k"⟩]⟩ : Graph)).relations,
        r.fromName ≠ "A" ∧ r.toName ≠ "A") :=
  ⟨dangling_edge_invariant.1 _,
   dangling_edge_invariant.2.1 _ _ _ (Or.inl (by decide)),
   dangling_edge_invariant.2.2 _ _ _ (by decide) (by decide)⟩

/-- C8: deleting a name not present in the store is a no-op: the graph is
unchanged, the operation succeeds, and the tool reports success. -/
theorem delete_absent_entity_noop (g : Graph) (n : String)
    (h : hasEnt g.entities n = false) :
    deleteEntitiesLoop [n] g = g
    ∧ applyOp g (Op.delE [n]) = Except.ok g
    ∧ delete_entities_tool g [n] = (⟨"success", 1⟩, g) := by
  have h1 : deleteEntitiesLoop [n] g = g := by
    simp [deleteEntitiesLoop, h]
  exact ⟨h1, by simp [applyOp, h1], by simp [delete_entities_tool, h1]⟩

/-- Witness for C8: deleting the absent name `"B"` from a one-entity
store leaves it unchanged. -/
theorem delete_absent_entity_noop_witness :
    hasEnt (⟨[("A", ⟨"t", []⟩)], []⟩ : Graph).entities "B" = false
    ∧ deleteEntitiesLoop ["B"] ⟨[("A", ⟨"t", []⟩)], []⟩
        = ⟨[("A", ⟨"t", []⟩)], []⟩ :=
  ⟨by decide,
   (delete_absent_entity_noop ⟨[("A", ⟨"t", []⟩)], []⟩ "B" (by decide)).1⟩

/-- Counterexample to C9: `create_entities` happily admits an entity whose
name is the empty string — no name validation exists in the code. -/
theorem empty_name_admitted :
    createEntitiesLoop [⟨"", "t", none⟩] emptyGraph
      = (⟨[("", ⟨"t", []⟩)], []⟩, none)
    ∧ "" ∈ entNames (createEntitiesLoop [⟨"", "t", none⟩] emptyGraph).1 := by
  exact ⟨rfl, by decide⟩

/-- C9 as amended: `create_entities` enforces only name uniqueness, not
name contents; whenever no empty-named entity exists yet, an entity whose
name is the empty string is admitted and stored. -/
theorem create_entities_no_name_validation (g : Graph) (t : String)
    (h : hasEnt g.entities "" = false) :
    ∃ g2, createEntitiesLoop [⟨"", t, none⟩] g = (g2, none)
      ∧ "" ∈ entNames g2 := by
  refine ⟨{ g with entities := insertEnt g.entities "" ⟨t, []⟩ }, ?_, ?_⟩
  · simp [createEntitiesLoop, h]
  · exact (mem_keys_insertEnt _ _ _ _).2 (Or.inr rfl)

/-- Witness for the amended C9 at the empty store. -/
theorem create_entities_no_name_validation_witness :
    hasEnt emptyGraph.entities "" = false
    ∧ ∃ g2, createEntitiesLoop [⟨"", "t", none⟩] emptyGraph = (g2, none)
        ∧ "" ∈ entNames g2 :=
  ⟨by decide, create_entities_no_name_validation emptyGraph "t" (by decide)⟩

/-- C10: the `deleted` count reported by the `delete_entities` and
`delete_relations` tools is the length of the request list; on a request
naming absent records the reported count strictly exceeds the number of
records actually removed (here: 2 reported vs 1 entity removed, and
1 reported vs 0 relations removed). -/
theorem deleted_count_is_request_length :
    (∀ (g : Graph) (ns : List String),
      (delete_entities_tool g ns).1 = ⟨"success", ns.length⟩)
    ∧ (∀ (g : Graph) (rs : List Rel),
      (delete_relations_tool g rs).1 = ⟨"success", rs.length⟩)
    ∧ ((delete_entities_tool ⟨[("A", ⟨"t", []⟩)], []⟩ ["A", "B"]).1.deleted = 2
        ∧ (delete_entities_tool ⟨[("A", ⟨"t", []⟩)], []⟩ ["A", "B"]).2
            = emptyGraph
        ∧ (⟨[("A", ⟨"t", []⟩)], []⟩ : Graph).entities.length = 1
        ∧ 1 < 2)
    ∧ ((delete_relations_tool emptyGraph [⟨"A", "B", "k"⟩]).1.deleted = 1
        ∧ (delete_relations_tool emptyGraph [⟨"A", "B", "k"⟩]).2 = emptyGraph
        ∧ 0 < 1) := by
  refine ⟨fun g ns => rfl, fun g rs => rfl,
    ⟨rfl, by decide, by decide, by decide⟩, ⟨rfl, by decide, by decide⟩⟩

/-- C2 fails on the code (persistence branch): `_save` opens the file in
write mode, truncating it, before writing the new records.  Previous
state: one entity `Alice`, persisted as one line that loads back to the
previous graph.  A mutation adding `Bob` whose save faults before any
line is written (e.g. disk full) leaves the file EMPTY — it no longer
represents the previous consistent state, contradicting the claim. -/
theorem save_failure_truncates_file :
    serializeGraph (⟨[("Alice", ⟨"person", []⟩)], []⟩ : Graph)
      = [Record.ent "Alice" "person" []]
    ∧ loadFile [Record.ent "Alice" "person" []]
        = ⟨[("Alice", ⟨"person", []⟩)], []⟩
    ∧ saveLinesFault
        (⟨[("Alice", ⟨"person", []⟩), ("Bob", ⟨"person", []⟩)], []⟩ : Graph)
        (some 0) = ([], false)
    ∧ loadFile ([] : List Record)
        ≠ (⟨[("Alice", ⟨"person", []⟩)], []⟩ : Graph) := by
  exact ⟨rfl, rfl, rfl, by decide⟩

/-! ## Load behaviour around malformed lines, and the save/load round trip -/

theorem loadLoop_stops (pre post : List Record) :
    ∀ g, Record.malformed ∉ pre →
    loadLoop (pre ++ Record.malformed :: post) g = loadLoop pre g := by
  induction pre with
  | nil => intro g _; rfl
  | cons c rest ih =>
    intro g h
    have hc : c ≠ Record.malformed := by
      rintro rfl; exact h (List.mem_cons_self _ _)
    have h' : Record.malformed ∉ rest := fun hm => h (List.mem_cons_of_mem _ hm)
    cases c with
    | blank => simp only [List.cons_append, loadLoop]; exact ih _ h'
    | other => simp only [List.cons_append, loadLoop]; exact ih _ h'
    | malformed => exact absurd rfl hc
    | ent n t o => simp only [List.cons_append, loadLoop]; exact ih _ h'
    | rel f t r => simp only [List.cons_append, loadLoop]; exact ih _ h'

/-- Counterexample to C3: a well-formed entity record placed AFTER a
malformed line does NOT end up in the loaded graph — the `try/except`
wraps the whole read loop, so the first malformed line aborts the rest of
the load. -/
theorem load_after_malformed_lost :
    loadFile [Record.ent "A" "t" [], Record.malformed, Record.ent "B" "t" []]
      = ⟨[("A", ⟨"t", []⟩)], []⟩
    ∧ hasEnt (loadFile [Record.ent "A" "t" [], Record.malformed,
        Record.ent "B" "t" []]).entities "B" = false := by
  exact ⟨rfl, by decide⟩

/-- C3 as amended: load reads line by line and skips blank lines, but a
line that fails to parse makes it log one warning and STOP, keeping
exactly the records read before that line; records after the first
malformed line are dropped. -/
theorem load_keeps_before_malformed (pre post : List Record)
    (h : Record.malformed ∉ pre) :
    loadFile (pre ++ Record.malformed :: post) = loadFile pre
    ∧ ∀ ls : List Record, loadFile (Record.blank :: ls) = loadFile ls :=
  ⟨loadLoop_stops pre post emptyGraph h, fun _ => rfl⟩

/-- Witness for the amended C3: one good record before the malformed line
survives, the one after is dropped. -/
theorem load_keeps_before_malformed_witness :
    Record.malformed ∉ [Record.ent "A" "t" []]
    ∧ loadFile ([Record.ent "A" "t" []]
        ++ Record.malformed :: [Record.ent "B" "t" []])
      = loadFile [Record.ent "A" "t" []] :=
  ⟨by decide,
   (load_keeps_before_malformed [Record.ent "A" "t" []]
     [Record.ent "B" "t" []] (by decide)).1⟩

theorem loadLoop_append_no_malformed (xs ys : List Record) (g : Graph)
    (h : Record.malformed ∉ xs) :
    loadLoop (xs ++ ys) g = loadLoop ys (loadLoop xs g) := by
  induction xs generalizing g with
  | nil => rfl
  | cons c rest ih =>
    have hc : c ≠ Record.malformed := by
      rintro rfl; exact h (List.mem_cons_self _ _)
    have h' : Record.malformed ∉ rest := fun hm => h (List.mem_cons_of_mem _ hm)
    cases c with
    | blank => simp only [List.cons_append, loadLoop]; exact ih _ h'
    | other => simp only [List.cons_append, loadLoop]; exact ih _ h'
    | malformed => exact absurd rfl hc
    | ent n t o => simp only [List.cons_append, loadLoop]; exact ih _ h'
    | rel f t r => simp only [List.cons_append, loadLoop]; exact ih _ h'

theorem loadLoop_entityRecords (es : List (String × EntityData)) :
    ∀ (acc : List (String × EntityData)) (rels : List Rel),
    (∀ k ∈ es.map Prod.fst, k ∉ acc.map Prod.fst) →
    (es.map Prod.fst).Nodup →
    loadLoop (es.map (fun p => Record.ent p.1 p.2.entityType p.2.observations))
        ⟨acc, rels⟩ = ⟨acc ++ es, rels⟩ := by
  induction es with
  | nil => intro acc rels _ _; simp [loadLoop]
  | cons p rest ih =>
    intro acc rels hfresh hnd
    obtain ⟨n, d⟩ := p
    simp only [List.map_cons, loadLoop]
    rw [show (⟨d.entityType, d.observations⟩ : EntityData) = d from rfl]
    rw [show (insertEnt acc n d) = acc ++ [(n, d)] from
      insertEnt_of_not_mem acc n d (hfresh n (by simp))]
    have hnd1 : ((n, d).1 :: rest.map Prod.fst).Nodup := by
      rw [List.map_cons] at hnd; exact hnd
    have hnd' : (rest.map Prod.fst).Nodup := (List.nodup_cons.1 hnd1).2
    have hhead : n ∉ rest.map Prod.fst := (List.nodup_cons.1 hnd1).1
    have hfresh' : ∀ k ∈ rest.map Prod.fst, k ∉ (acc ++ [(n, d)]).map Prod.fst := by
      intro k hk hk2
      rw [List.map_append] at hk2
      rcases List.mem_append.1 hk2 with h2 | h2
      · exact hfresh k (List.mem_cons_of_mem _ hk) h2
      · have hkn : k = n := by simpa using h2
        subst hkn
        exact hhead hk
    rw [ih (acc ++ [(n, d)]) rels hfresh' hnd']
    simp

theorem loadLoop_relRecords (rs : List Rel) :
    ∀ (es : List (String × EntityData)) (acc : List Rel),
    loadLoop (rs.map (fun r => Record.rel r.fromName r.toName r.relationType))
        ⟨es, acc⟩ = ⟨es, acc ++ rs⟩ := by
  induction rs with
  | nil => intro es acc; simp [loadLoop]
  | cons r rest ih =>
    intro es acc
    simp only [List.map_cons, loadLoop]
    rw [show (⟨r.fromName, r.toName, r.relationType⟩ : Rel) = r from rfl]
    rw [ih es (acc ++ [r])]
    simp

/-- C5: saving a graph with unique entity names and loading the result
reproduces the graph exactly (hence the entity and relation sets agree
with the originals, in any order). -/
theorem save_load_round_trip (g : Graph) (h : (entNames g).Nodup) :
    loadFile (serializeGraph g) = g := by
  unfold loadFile serializeGraph
  rw [loadLoop_append_no_malformed _ _ _ (by
    intro hm
    rcases List.mem_map.1 hm with ⟨p, _, hp⟩
    cases hp)]
  rw [show loadLoop
      (g.entities.map (fun p => Record.ent p.1 p.2.entityType p.2.observations))
      emptyGraph = (⟨[] ++ g.entities, []⟩ : Graph) from
    loadLoop_entityRecords g.entities [] [] (by simp) h]
  rw [List.nil_append]
  rw [loadLoop_relRecords g.relations g.entities []]
  rw [List.nil_append]

/-- Witness for C5 on a concrete two-entity, one-relation graph. -/
theorem save_load_round_trip_witness :
    (entNames ⟨[("A", ⟨"t", ["o"]⟩), ("B", ⟨"u", []⟩)],
      [⟨"A", "B", "k"⟩]⟩).Nodup
    ∧ loadFile (serializeGraph ⟨[("A", ⟨"t", ["o"]⟩), ("B", ⟨"u", []⟩)],
        [⟨"A", "B", "k"⟩]⟩)
      = ⟨[("A", ⟨"t", ["o"]⟩), ("B", ⟨"u", []⟩)], [⟨"A", "B", "k"⟩]⟩ :=
  ⟨by decide, save_load_round_trip _ (by decide)⟩

/-! ## Batch splitting lemmas for the create loops -/

theorem createEntitiesLoop_append (xs ys : List EntityIn) (g : Graph) :
    createEntitiesLoop (xs ++ ys) g =
      match createEntitiesLoop xs g with
      | (g1, none) => createEntitiesLoop ys g1
      | (g1, some e) => (g1, some e) := by
  induction xs generalizing g with
  | nil => rfl
  | cons x rest ih =>
    by_cases hh : hasEnt g.entities x.name = true
    · simp [createEntitiesLoop, hh]
    · have hh' : hasEnt g.entities x.name = false := by simpa using hh
      simp [createEntitiesLoop, hh', ih]

theorem createEntitiesLoop_mem (es : List EntityIn) (g : Graph)
    (hs : (createEntitiesLoop es g).2 = none) :
    ∀ e ∈ es, hasEnt (createEntitiesLoop es g).1.entities e.name = true := by
  induction es generalizing g with
  | nil => intro e he; cases he
  | cons x rest ih =>
    by_cases hh : hasEnt g.entities x.name = true
    · exfalso
      have hbad : (createEntitiesLoop (x :: rest) g).2
          = some ("Entity already exists: " ++ x.name) := by
        simp [createEntitiesLoop, hh]
      rw [hs] at hbad
      exact Option.noConfusion hbad
    · have hh' : hasEnt g.entities x.name = false := by simpa using hh
      have hstep : createEntitiesLoop (x :: rest) g
          = createEntitiesLoop rest
              { g with entities := insertEnt g.entities x.name ⟨x.entityType, x.observations.getD []⟩ } := by
        simp [createEntitiesLoop, hh']
      rw [hstep] at hs ⊢
      intro e he
      rcases List.mem_cons.1 he with rfl | he'
      · rw [hasEnt_iff]
        apply createEntitiesLoop_keys_mono
        exact (mem_keys_insertEnt _ _ _ _).2 (Or.inr rfl)
      · exact ih _ hs e he'

theorem createRelationsLoop_append (xs ys : List Rel) (g : Graph) :
    createRelationsLoop (xs ++ ys) g =
      match createRelationsLoop xs g with
      | (g1, none) => createRelationsLoop ys g1
      | (g1, some e) => (g1, some e) := by
  induction xs generalizing g with
  | nil => rfl
  | cons x rest ih =>
    by_cases h1 : hasEnt g.entities x.fromName = true
    · by_cases h2 : hasEnt g.entities x.toName = true
      · cases h3 : g.relations.any (fun s => s = x) with
        | true => simp [createRelationsLoop, h1, h2, h3]
        | false => simp [createRelationsLoop, h1, h2, h3, ih]
      · have h2' : hasEnt g.entities x.toName = false := by simpa using h2
        simp [createRelationsLoop, h1, h2']
    · have h1' : hasEnt g.entities x.fromName = false := by simpa using h1
      simp [createRelationsLoop, h1']

theorem createRelationsLoop_relations_mono (rs : List Rel) (g : Graph)
    (r : Rel) (h : r ∈ g.relations) :
    r ∈ (createRelationsLoop rs g).1.relations := by
  induction rs generalizing g with
  | nil => exact h
  | cons x rest ih =>
    by_cases h1 : hasEnt g.entities x.fromName = true
    · by_cases h2 : hasEnt g.entities x.toName = true
      · cases h3 : g.relations.any (fun s => s = x) with
        | true => simpa [createRelationsLoop, h1, h2, h3] using h
        | false =>
          have hrec := ih { g with relations := g.relations ++ [x] }
            (List.mem_append_left _ h)
          simpa [createRelationsLoop, h1, h2, h3] using hrec
      · have h2' : hasEnt g.entities x.toName = false := by simpa using h2
        simpa [createRelationsLoop, h1, h2'] using h
    · have h1' : hasEnt g.entities x.fromName = false := by simpa using h1
      simpa [createRelationsLoop, h1'] using h

theorem createRelationsLoop_mem (rs : List Rel) (g : Graph)
    (hs : (createRelationsLoop rs g).2 = none) :
    ∀ r ∈ rs, r ∈ (createRelationsLoop rs g).1.relations := by
  induction rs generalizing g with
  | nil => intro r hr; cases hr
  | cons x rest ih =>
    by_cases h1 : hasEnt g.entities x.fromName = true
    · by_cases h2 : hasEnt g.entities x.toName = true
      · cases h3 : g.relations.any (fun s => s = x) with
        | true =>
          exfalso
          have hbad : (createRelationsLoop (x :: rest) g).2
              = some "Relation already exists" := by
            simp [createRelationsLoop, h1, h2, h3]
          rw [hs] at hbad
          exact Option.noConfusion hbad
        | false =>
          have hstep : createRelationsLoop (x :: rest) g
              = createRelationsLoop rest
                  { g with relations := g.relations ++ [x] } := by
            simp [createRelationsLoop, h1, h2, h3]
          rw [hstep] at hs ⊢
          intro r hr
          rcases List.mem_cons.1 hr with rfl | hr'
          · exact createRelationsLoop_relations_mono rest _ r
              (List.mem_append_right _ (List.mem_singleton_self r))
          · exact ih _ hs r hr'
      · exfalso
        have h2' : hasEnt g.entities x.toName = false := by simpa using h2
        have hbad : (createRelationsLoop (x :: rest) g).2
            = some ("Entity not found: " ++ x.toName) := by
          simp [createRelationsLoop, h1, h2']
        rw [hs] at hbad
        exact Option.noConfusion hbad
    · exfalso
      have h1' : hasEnt g.entities x.fromName = false := by simpa using h1
      have hbad : (createRelationsLoop (x :: rest) g).2
          = some ("Entity not found: " ++ x.fromName) := by
        simp [createRelationsLoop, h1']
      rw [hs] at hbad
      exact Option.noConfusion hbad

/-- C4: batches are processed one item at a time; the first duplicate
aborts the remaining batch (the result does not depend on `rest`), while
the items inserted earlier in the same call are still in the in-memory
graph object at the moment the exception is raised (no rollback).  The
second conjunct is the analogous statement for `create_relations` with a
duplicate triple. -/
theorem partial_batch_semantics (g : Graph) (pre : List EntityIn)
    (e : EntityIn) (rest : List EntityIn)
    (hpre : (createEntitiesLoop pre g).2 = none)
    (hdup : hasEnt (createEntitiesLoop pre g).1.entities e.name = true) :
    (createEntitiesLoop (pre ++ e :: rest) g
        = ((createEntitiesLoop pre g).1,
           some ("Entity already exists: " ++ e.name))
      ∧ ∀ p ∈ pre, hasEnt (createEntitiesLoop pre g).1.entities p.name = true)
    ∧ ∀ (rpre : List Rel) (r : Rel) (rrest : List Rel),
        (createRelationsLoop rpre g).2 = none →
        hasEnt (createRelationsLoop rpre g).1.entities r.fromName = true →
        hasEnt (createRelationsLoop rpre g).1.entities r.toName = true →
        (createRelationsLoop rpre g).1.relations.any (fun s => s = r) = true →
        createRelationsLoop (rpre ++ r :: rrest) g
            = ((createRelationsLoop rpre g).1, some "Relation already exists")
          ∧ ∀ p ∈ rpre, p ∈ (createRelationsLoop rpre g).1.relations := by
  constructor
  · constructor
    · rw [createEntitiesLoop_append]
      cases hle : createEntitiesLoop pre g with
      | mk g1 err =>
        rw [hle] at hpre hdup
        cases err with
        | some e0 => exact absurd hpre (by simp)
        | none =>
          have hdup' : hasEnt g1.entities e.name = true := hdup
          show createEntitiesLoop (e :: rest) g1
            = (g1, some ("Entity already exists: " ++ e.name))
          simp [createEntitiesLoop, hdup']
    · exact fun p hp => createEntitiesLoop_mem pre g hpre p hp
  · intro rpre r rrest h0 h1 h2 h3
    refine ⟨?_, createRelationsLoop_mem rpre g h0⟩
    rw [createRelationsLoop_append]
    cases hle : createRelationsLoop rpre g with
    | mk g1 err =>
      rw [hle] at h0 h1 h2 h3
      cases err with
      | some e0 => exact absurd h0 (by simp)
      | none =>
        have h1' : hasEnt g1.entities r.fromName = true := h1
        have h2' : hasEnt g1.entities r.toName = true := h2
        have h3' : g1.relations.any (fun s => s = r) = true := h3
        show createRelationsLoop (r :: rrest) g1
          = (g1, some "Relation already exists")
        simp [createRelationsLoop, h1', h2', h3']

/-- Witness for C4: creating `A` then `A` again aborts the batch before
`B`, keeping the first `A`. -/
theorem partial_batch_semantics_witness :
    (createEntitiesLoop [⟨"A", "t", none⟩] emptyGraph).2 = none
    ∧ hasEnt (createEntitiesLoop
        [⟨"A", "t", none⟩] emptyGraph).1.entities "A" = true
    ∧ createEntitiesLoop
        ([⟨"A", "t", none⟩] ++ ⟨"A", "u", none⟩ :: [⟨"B", "t", none⟩])
        emptyGraph
      = ((createEntitiesLoop [⟨"A", "t", none⟩] emptyGraph).1,
         some ("Entity already exists: " ++ "A")) :=
  ⟨by decide, by decide,
   ((partial_batch_semantics emptyGraph [⟨"A", "t", none⟩] ⟨"A", "u", none⟩
      [⟨"B", "t", none⟩] (by decide) (by decide)).1).1⟩

/-! ## `search_nodes` against the spec's description -/

theorem obsAnyMatch_eq_any (q : String) (os : List String) :
    obsAnyMatch q os = os.any (fun o => strContains o.toLower q) := by
  induction os with
  | nil => rfl
  | cons o rest ih =>
    by_cases h : strContains o.toLower q = true
    · simp [obsAnyMatch, h]
    · have h' : strContains o.toLower q = false := by simpa using h
      simp [obsAnyMatch, h', ih]

theorem searchLoop_eq_filterMap (q : String) (es : List (String × EntityData)) :
    searchLoop q.toLower es = es.filterMap (fun p =>
      (specMatchField q p.1 p.2).map
        (fun f => ⟨p.1, p.2.entityType, p.2.observations, f⟩)) := by
  induction es with
  | nil => rfl
  | cons p rest ih =>
    obtain ⟨n, d⟩ := p
    by_cases h1 : strContains n.toLower q.toLower = true
    · simp [searchLoop, specMatchField, h1, ih, List.filterMap_cons]
    · have h1' : strContains n.toLower q.toLower = false := by simpa using h1
      by_cases h2 : strContains d.entityType.toLower q.toLower = true
      · simp [searchLoop, specMatchField, h1', h2, ih, List.filterMap_cons]
      · have h2' : strContains d.entityType.toLower q.toLower = false := by
          simpa using h2
        cases h3 : obsAnyMatch q.toLower d.observations with
        | true =>
          have h3any : d.observations.any
              (fun o => strContains o.toLower q.toLower) = true := by
            rw [← obsAnyMatch_eq_any]; exact h3
          have h3ex : ∃ x ∈ d.observations,
              strContains x.toLower q.toLower = true := by
            simpa using h3any
          simp [searchLoop, specMatchField, h1', h2', h3, h3ex, ih,
            List.filterMap_cons]
        | false =>
          have h3any : d.observations.any
              (fun o => strContains o.toLower q.toLower) = false := by
            rw [← obsAnyMatch_eq_any]; exact h3
          have h3ex : ¬ ∃ x ∈ d.observations,
              strContains x.toLower q.toLower = true := by
            simpa using h3any
          simp [searchLoop, specMatchField, h1', h2', h3, h3ex, ih,
            List.filterMap_cons]

theorem searchLoop_names_sublist (q : String)
    (es : List (String × EntityData)) :
    List.Sublist ((searchLoop q es).map SearchHit.name) (es.map Prod.fst) := by
  induction es with
  | nil => simp [searchLoop]
  | cons p rest ih =>
    obtain ⟨n, d⟩ := p
    by_cases h1 : strContains n.toLower q = true
    · simp only [searchLoop, h1, if_true, List.map_cons]
      exact List.Sublist.cons₂ _ ih
    · have h1' : strContains n.toLower q = false := by simpa using h1
      by_cases h2 : strContains d.entityType.toLower q = true
      · simp only [searchLoop, h1', Bool.false_eq_true, if_false, h2, if_true,
          List.map_cons]
        exact List.Sublist.cons₂ _ ih
      · have h2' : strContains d.entityType.toLower q = false := by simpa using h2
        cases h3 : obsAnyMatch q d.observations with
        | true =>
          simp only [searchLoop, h1', h2', Bool.false_eq_true, if_false, h3,
            if_true, List.map_cons]
          exact List.Sublist.cons₂ _ ih
        | false =>
          simp only [searchLoop, h1', h2', h3, Bool.false_eq_true, if_false]
          exact List.Sublist.cons _ ih

/-- C6: `search_nodes` is the per-entity first-match filter described by
the spec — case-insensitive substring matching in the precedence order
name, type, observation, reporting the first matching field — and, since
entity names are unique, each entity appears at most once in the result
list. -/
theorem search_nodes_spec (g : Graph) (q : String)
    (h : (entNames g).Nodup) :
    searchNodes g q = g.entities.filterMap (fun p =>
      (specMatchField q p.1 p.2).map
        (fun f => ⟨p.1, p.2.entityType, p.2.observations, f⟩))
    ∧ ((searchNodes g q).map SearchHit.name).Nodup := by
  refine ⟨searchLoop_eq_filterMap q g.entities, ?_⟩
  exact List.Nodup.sublist (searchLoop_names_sublist q.toLower g.entities) h

/-- Witness for C6 on the spec's own scenario: searching `"coffee"` over
`Alice`/`Bob` where only an observation of `Bob` matches. -/
theorem search_nodes_spec_witness :
    (entNames (⟨[("Alice", ⟨"person", []⟩),
        ("Bob", ⟨"person", ["likes coffee"]⟩)], []⟩ : Graph)).Nodup
    ∧ ((searchNodes (⟨[("Alice", ⟨"person", []⟩),
        ("Bob", ⟨"person", ["likes coffee"]⟩)], []⟩ : Graph) "coffee").map
          SearchHit.name).Nodup :=
  ⟨by decide, (search_nodes_spec _ "coffee" (by decide)).2⟩

/-! ## Adding then deleting observations -/

/-- Counterexample to C7: if the added string already occurs in the
entity's observation list, `delete_observations` removes ALL occurrences,
so add-then-delete does not restore the prior list. -/
theorem add_delete_observations_cex :
    addObservations ⟨[("Alice", ⟨"person", ["x"]⟩)], []⟩ "Alice" ["x"]
      = Except.ok ⟨[("Alice", ⟨"person", ["x", "x"]⟩)], []⟩
    ∧ deleteObservations ⟨[("Alice", ⟨"person", ["x", "x"]⟩)], []⟩ "Alice" ["x"]
      = Except.ok ⟨[("Alice", ⟨"person", []⟩)], []⟩
    ∧ (⟨[("Alice", ⟨"person", []⟩)], []⟩ : Graph)
      ≠ ⟨[("Alice", ⟨"person", ["x"]⟩)], []⟩ := by
  exact ⟨rfl, rfl, by decide⟩

/-- C7 as amended: add-then-delete with the same observation list
restores the entity's observation list (indeed the whole graph) provided
none of the entity's existing observations occurs in the added list. -/
theorem add_then_delete_observations (g : Graph) (n : String)
    (obs : List String) (d : EntityData)
    (hl : lookupEnt g.entities n = some d)
    (hdisj : ∀ s ∈ d.observations, s ∉ obs) :
    ∃ g1, addObservations g n obs = Except.ok g1
      ∧ deleteObservations g1 n obs = Except.ok g := by
  refine ⟨{ g with entities := insertEnt g.entities n { d with observations := d.observations ++ obs } }, ?_, ?_⟩
  · simp [addObservations, hl]
  · have hl1 : lookupEnt (insertEnt g.entities n
        { d with observations := d.observations ++ obs }) n
        = some { d with observations := d.observations ++ obs } :=
      lookup_insertEnt_self _ _ _
    simp only [deleteObservations, hl1]
    have hobs : (d.observations ++ obs).filter (fun o => !(obs.contains o))
        = d.observations := by
      rw [List.filter_append]
      have hhalf1 : d.observations.filter (fun o => !(obs.contains o))
          = d.observations := by
        rw [List.filter_eq_self]
        intro a ha
        simpa using hdisj a ha
      have hhalf2 : obs.filter (fun o => !(obs.contains o)) = [] := by
        rw [List.filter_eq_nil_iff]
        intro a ha
        simp [ha]
      rw [hhalf1, hhalf2, List.append_nil]
    have hd2 : delObsData { d with observations := d.observations ++ obs } obs
        = d := by
      unfold delObsData
      rw [show ({ d with observations := d.observations ++ obs } : EntityData).observations = d.observations ++ obs from rfl]
      rw [hobs]
    rw [hd2, insertEnt_insertEnt, insertEnt_lookup_self g.entities n d hl]

/-- Witness for the amended C7: adding then deleting `"x"` on an entity
whose prior observations are `["y"]` restores the store. -/
theorem add_then_delete_observations_witness :
    lookupEnt (⟨[("Alice", ⟨"person", ["y"]⟩)], []⟩ : Graph).entities "Alice"
      = some ⟨"person", ["y"]⟩
    ∧ ∃ g1, addObservations ⟨[("Alice", ⟨"person", ["y"]⟩)], []⟩ "Alice" ["x"]
          = Except.ok g1
        ∧ deleteObservations g1 "Alice" ["x"]
          = Except.ok ⟨[("Alice", ⟨"person", ["y"]⟩)], []⟩ :=
  ⟨by decide,
   add_then_delete_observations ⟨[("Alice", ⟨"person", ["y"]⟩)], []⟩ "Alice"
     ["x"] ⟨"person", ["y"]⟩ (by decide) (by decide)⟩

end MemoryGraph
